import Mathlib

/-!
Shallow embedding of the frequency-domain core of `fft_toy.py`: the forward
and inverse 2D discrete Fourier pipeline (`compute_frequency_domain`,
`inverse_transform`), the visual encodings and their shared log-magnitude
range, the radial and magnitude-threshold filters, and the reconciliation of
magnitude and phase edits (`freq_drawing_finished`,
`_process_phase_drawing_finished`).

Numeric conventions: the source's floating-point arithmetic is modelled over
`ℝ` and `ℂ`; 8-bit image buffers are `ℕ`-valued matrices whose entries the
source keeps in `[0, 255]`; `np.uint8` conversion of a value already in
`[0, 255]` is plain truncation, modelled by `Int.floor` followed by `toNat`.
Matrices are curried functions `Fin H → Fin W → Fin 3 → _`, mirroring numpy's
`[row, column, channel]` indexing.
-/

open Complex Finset

/-- `np.log1p x = log (1 + x)`. -/
noncomputable def log1p (x : ℝ) : ℝ := Real.log (1 + x)

/-- `np.expm1 x = exp x - 1`. -/
noncomputable def expm1 (x : ℝ) : ℝ := Real.exp x - 1

lemma expm1_log1p {x : ℝ} (hx : -1 < x) : expm1 (log1p x) = x := by
  rw [expm1, log1p, Real.exp_log (by linarith)]
  ring

lemma log1p_lt_log1p {x y : ℝ} (hx : -1 < x) (h : x < y) : log1p x < log1p y :=
  Real.log_lt_log (by linarith) (by linarith)

/-- The epsilon the source adds before `log1p` and uses as degeneracy guard. -/
noncomputable def npEps : ℝ := 1e-9

/-- Truncating conversion of a (nonnegative, in-range) float to `uint8`,
as performed by `.astype(np.uint8)` in `normalize_for_display` and
`inverse_transform`; all source call sites feed it values in `[0, 255]`. -/
noncomputable def toUint8 (x : ℝ) : ℕ := (⌊x⌋).toNat

section DFT

variable {N : ℕ} [NeZero N]

/-- One-dimensional DFT with numpy's `fft` convention
`X[k] = Σ_n x[n]·exp(-2πi·k·n/N)`. -/
noncomputable def dft (v : Fin N → ℂ) (k : Fin N) : ℂ :=
  ∑ n : Fin N, v n * Complex.exp (-(2 * Real.pi * Complex.I * k * n) / N)

/-- One-dimensional inverse DFT with numpy's `ifft` convention
`x[n] = (1/N)·Σ_k X[k]·exp(2πi·k·n/N)`. -/
noncomputable def idft (V : Fin N → ℂ) (n : Fin N) : ℂ :=
  (∑ k : Fin N, V k * Complex.exp ((2 * Real.pi * Complex.I * k * n) / N)) / N

lemma natCast_ne_zero_of_neZero : ((N : ℂ)) ≠ 0 := Nat.cast_ne_zero.2 (NeZero.ne N)

lemma root_pow_sum (m : ℤ) :
    ∑ k : Fin N, Complex.exp (2 * Real.pi * Complex.I * m * k / N) =
      if (N : ℤ) ∣ m then (N : ℂ) else 0 := by
  have hN : ((N : ℂ)) ≠ 0 := natCast_ne_zero_of_neZero
  have hexp : ∀ k : Fin N, Complex.exp (2 * Real.pi * Complex.I * m * k / N)
      = Complex.exp (2 * Real.pi * Complex.I * m / N) ^ (k : ℕ) := by
    intro k
    rw [← Complex.exp_nat_mul]
    congr 1
    ring
  rw [Finset.sum_congr rfl fun k _ => hexp k]
  by_cases hdvd : (N : ℤ) ∣ m
  · obtain ⟨t, rfl⟩ := hdvd
    have hz : Complex.exp (2 * Real.pi * Complex.I * ((N : ℤ) * t : ℤ) / N) = 1 := by
      have harg : (2 : ℂ) * Real.pi * Complex.I * ((N : ℤ) * t : ℤ) / N
          = t * (2 * Real.pi * Complex.I) := by
        push_cast
        field_simp
        ring
      rw [harg, Complex.exp_int_mul_two_pi_mul_I]
    rw [if_pos ⟨t, rfl⟩, hz]
    simp
  · have h2 : (2 : ℂ) * Real.pi * Complex.I ≠ 0 := by
      simp [Real.pi_ne_zero, Complex.I_ne_zero]
    have hz1 : Complex.exp (2 * Real.pi * Complex.I * m / N) ≠ 1 := by
      intro hc
      rw [Complex.exp_eq_one_iff] at hc
      obtain ⟨t, ht⟩ := hc
      have ht' : (2 * (Real.pi : ℂ) * Complex.I) * m
          = (2 * Real.pi * Complex.I) * (t * N) := by
        rw [div_eq_iff hN] at ht
        linear_combination ht
      have hm : (m : ℂ) = t * N := mul_left_cancel₀ h2 ht'
      have hm' : (m : ℤ) = t * N := by exact_mod_cast hm
      exact hdvd ⟨t, by linear_combination hm'⟩
    have hzN : Complex.exp (2 * Real.pi * Complex.I * m / N) ^ N = 1 := by
      rw [← Complex.exp_nat_mul]
      have harg : (N : ℂ) * (2 * Real.pi * Complex.I * m / N)
          = m * (2 * Real.pi * Complex.I) := by
        field_simp
        ring
      rw [harg, Complex.exp_int_mul_two_pi_mul_I]
    rw [if_neg hdvd,
      Fin.sum_univ_eq_sum_range (fun j => Complex.exp (2 * Real.pi * Complex.I * m / N) ^ j) N,
      geom_sum_eq hz1 N, hzN]
    simp

/-- Fourier inversion for the 1D transform: `ifft (fft v) = v`. -/
lemma idft_dft (v : Fin N → ℂ) (n : Fin N) : idft (dft v) n = v n := by
  have hN : ((N : ℂ)) ≠ 0 := natCast_ne_zero_of_neZero
  have key : ∀ j k : Fin N,
      v j * Complex.exp (-(2 * Real.pi * Complex.I * k * j) / N) *
        Complex.exp ((2 * Real.pi * Complex.I * k * n) / N)
      = v j * Complex.exp (2 * Real.pi * Complex.I * (((n : ℤ) - (j : ℤ) : ℤ) : ℂ) * k / N) := by
    intro j k
    rw [mul_assoc, ← Complex.exp_add]
    congr 2
    push_cast
    ring
  have hsum : ∑ k : Fin N, dft v k * Complex.exp ((2 * Real.pi * Complex.I * k * n) / N)
      = ∑ j : Fin N, v j *
          ∑ k : Fin N, Complex.exp (2 * Real.pi * Complex.I * (((n : ℤ) - (j : ℤ) : ℤ) : ℂ) * k / N) := by
    unfold dft
    simp_rw [Finset.sum_mul]
    rw [Finset.sum_comm]
    simp_rw [key, ← Finset.mul_sum]
  have hval : ∀ j : Fin N,
      ∑ k : Fin N, Complex.exp (2 * Real.pi * Complex.I * (((n : ℤ) - (j : ℤ) : ℤ) : ℂ) * k / N)
        = if (N : ℤ) ∣ ((n : ℤ) - (j : ℤ)) then (N : ℂ) else 0 := fun j =>
    root_pow_sum ((n : ℤ) - (j : ℤ))
  rw [idft, hsum]
  simp_rw [hval]
  rw [Finset.sum_eq_single n
    (fun j _ hj => by
      have hnd : ¬ ((N : ℤ) ∣ ((n : ℤ) - (j : ℤ))) := by
        intro hdvd
        have hz : ((n : ℤ) - (j : ℤ)) = 0 := by
          refine Int.eq_zero_of_dvd_of_natAbs_lt_natAbs hdvd ?_
          have h1 := n.isLt
          have h2 := j.isLt
          omega
        have : (j : ℕ) = (n : ℕ) := by omega
        exact hj (Fin.ext this)
      rw [if_neg hnd, mul_zero])
    (fun hn => absurd (Finset.mem_univ n) hn)]
  rw [if_pos ⟨0, by ring⟩]
  field_simp

end DFT

section DFT2

variable {H W : ℕ} [NeZero H] [NeZero W]

/-- `np.fft.fft2`: the 1D DFT applied along both axes. -/
noncomputable def fft2 (g : Fin H → Fin W → ℂ) : Fin H → Fin W → ℂ :=
  fun u v => dft (fun y => dft (fun x => g y x) v) u

/-- `np.fft.ifft2`: the 1D inverse DFT applied along both axes. -/
noncomputable def ifft2 (g : Fin H → Fin W → ℂ) : Fin H → Fin W → ℂ :=
  fun y x => idft (fun v => idft (fun u => g u v) y) x

lemma ifft2_fft2 (g : Fin H → Fin W → ℂ) : ifft2 (fft2 g) = g := by
  funext y x
  have hcol : ∀ v : Fin W, idft (fun u => fft2 g u v) y = dft (fun x' => g y x') v := by
    intro v
    exact idft_dft (fun y' => dft (fun x' => g y' x') v) y
  calc ifft2 (fft2 g) y x
      = idft (fun v => idft (fun u => fft2 g u v) y) x := rfl
    _ = idft (fun v => dft (fun x' => g y x') v) x := by
        congr 1
        funext v
        exact hcol v
    _ = g y x := idft_dft (fun x' => g y x') x

/-- Element `H/2` (integer division) of `Fin H`: the shift amount used by
`np.fft.fftshift`/`ifftshift` and the spectrum centre row `h // 2`. -/
def halfIdx (H : ℕ) [NeZero H] : Fin H :=
  ⟨H / 2, Nat.div_lt_self (Nat.pos_of_ne_zero (NeZero.ne H)) one_lt_two⟩

/-- `np.fft.fftshift` on a 2D array: roll both axes by `dim // 2`. -/
def fftshift2 (g : Fin H → Fin W → ℂ) : Fin H → Fin W → ℂ :=
  fun i j => g (i - halfIdx H) (j - halfIdx W)

/-- `np.fft.ifftshift` on a 2D array: roll both axes by `-(dim // 2)`. -/
def ifftshift2 (g : Fin H → Fin W → ℂ) : Fin H → Fin W → ℂ :=
  fun i j => g (i + halfIdx H) (j + halfIdx W)

lemma ifftshift2_fftshift2 (g : Fin H → Fin W → ℂ) : ifftshift2 (fftshift2 g) = g := by
  funext i j
  show g (i + halfIdx H - halfIdx H) (j + halfIdx W - halfIdx W) = g i j
  rw [add_sub_cancel_right, add_sub_cancel_right]

end DFT2

section Pipeline

variable {H W : ℕ} [NeZero H] [NeZero W]

/-- An 8-bit three-channel image buffer (`ℕ`-valued; entries lie in `[0,255]`
at every source call site). -/
abbrev Buf (H W : ℕ) : Type := Fin H → Fin W → Fin 3 → ℕ

/-- A complex per-channel spectrum, the `frequency_image` array. -/
abbrev Spec (H W : ℕ) : Type := Fin H → Fin W → Fin 3 → ℂ

/-- The spectrum computed by `compute_frequency_domain`: per channel, cast to
float, 2D FFT, then `fftshift`. -/
noncomputable def compute_frequency_image (img : Buf H W) : Spec H W :=
  fun y x c => fftshift2 (fft2 fun y' x' => ((img y' x' c : ℝ) : ℂ)) y x

/-- `inverse_transform`: per channel, `ifftshift`, inverse FFT, magnitude,
clip to `[0, 255]`, truncate to `uint8`. -/
noncomputable def inverse_transform (freq : Spec H W) : Buf H W :=
  fun y x c =>
    toUint8 (min 255 (max (Complex.abs (ifft2 (ifftshift2 fun y' x' => freq y' x' c) y x)) 0))

lemma inverse_transform_compute (img : Buf H W) (hv : ∀ y x c, img y x c ≤ 255) :
    inverse_transform (compute_frequency_image img) = img := by
  funext y x c
  have hinv : ifft2 (ifftshift2 fun y' x' => compute_frequency_image img y' x' c) y x
      = ((img y x c : ℝ) : ℂ) := by
    have h1 : (ifftshift2 fun y' x' => compute_frequency_image img y' x' c)
        = fft2 fun y' x' => ((img y' x' c : ℝ) : ℂ) :=
      ifftshift2_fftshift2 _
    rw [h1, ifft2_fft2]
  rw [inverse_transform, hinv]
  have habs : Complex.abs ((img y x c : ℝ) : ℂ) = (img y x c : ℝ) := by
    rw [Complex.abs_ofReal]
    exact abs_of_nonneg (Nat.cast_nonneg _)
  rw [habs, max_eq_left (Nat.cast_nonneg _),
    min_eq_right (by exact_mod_cast hv y x c)]
  rw [toUint8, Int.floor_natCast]
  simp

end Pipeline

section VisualEncoding

variable {H W : ℕ} [NeZero H] [NeZero W]

/-- The BGR↔RGB channel-index swap `{0: 2, 1: 1, 2: 0}` used when writing the
BGR-ordered log magnitudes into the RGB `normalized_spectrum` and when reading
display values back during reconciliation. -/
def flipChannel : Fin 3 → Fin 3
  | 0 => 2
  | 1 => 1
  | 2 => 0

/-- `normalize_for_display` with explicit bounds: affine rescale of a value
into `[0, 255]`, or `0` when the range is degenerate. -/
noncomputable def normalize_for_display (v minv maxv : ℝ) : ℕ :=
  if maxv - minv < 1e-9 then 0
  else toUint8 ((min maxv (max v minv) - minv) / (maxv - minv) * 255)

/-- The per-channel log magnitude `log1p(|z| + ε)`, the `magnitude_spectrum`
array. -/
noncomputable def log_magnitude (freq : Spec H W) : Fin H → Fin W → Fin 3 → ℝ :=
  fun y x c => log1p (Complex.abs (freq y x c) + npEps)

/-- The `(min, max)` pair `global_log_mag_range`: global extrema of the log
magnitudes over all pixels and channels, with the max widened to `min + 1`
when the raw range is below epsilon. -/
noncomputable def global_log_mag_range (m : Fin H → Fin W → Fin 3 → ℝ) : ℝ × ℝ :=
  let mn := Finset.univ.inf' Finset.univ_nonempty
    (fun t : Fin H × Fin W × Fin 3 => m t.1 t.2.1 t.2.2)
  let mx := Finset.univ.sup' Finset.univ_nonempty
    (fun t : Fin H × Fin W × Fin 3 => m t.1 t.2.1 t.2.2)
  (mn, if mx - mn < 1e-9 then mn + 1 else mx)

/-- The RGB-ordered `normalized_spectrum`: channel `c` of the display holds
the normalized log magnitude of BGR channel `flipChannel c`. -/
noncomputable def normalized_spectrum_of (m : Fin H → Fin W → Fin 3 → ℝ)
    (minv maxv : ℝ) : Buf H W :=
  fun y x c => normalize_for_display (m y x (flipChannel c)) minv maxv

end VisualEncoding

section Reconcile

variable {H W : ℕ} [NeZero H] [NeZero W]

/-- Per-pixel change mask: some channel of `final` differs from `baseline` by
more than 10 (the `int16` subtraction is exact on `[0,255]` data, modelled
over `ℤ`). -/
def changeMask (baseline final : Buf H W) (y : Fin H) (x : Fin W) : Prop :=
  ∃ c : Fin 3, 10 < ((final y x c : ℤ) - (baseline y x c : ℤ)).natAbs

instance (baseline final : Buf H W) (y : Fin H) (x : Fin W) :
    Decidable (changeMask baseline final y x) :=
  inferInstanceAs (Decidable (∃ _, _))

/-- `np.any(change_mask)`: at least one pixel changed. -/
def anyChange (baseline final : Buf H W) : Prop :=
  ∃ y x, changeMask baseline final y x

instance (baseline final : Buf H W) : Decidable (anyChange baseline final) :=
  inferInstanceAs (Decidable (∃ _, _))

/-- The black-pen sentinel test: all three display channels below the
tolerance 5. -/
def isBlackPixel (final : Buf H W) (y : Fin H) (x : Fin W) : Prop :=
  ∀ c : Fin 3, final y x c < 5

instance (final : Buf H W) (y : Fin H) (x : Fin W) :
    Decidable (isBlackPixel final y x) :=
  inferInstanceAs (Decidable (∀ _, _))

/-- The value written into BGR spectrum channel `c` at a changed, non-black
pixel: invert the displayed 8-bit value through the global log range, convert
to linear magnitude with `expm1`, clamp at zero and recombine with the
original phase. -/
noncomputable def freqTargetValue (freq : Spec H W) (final : Buf H W)
    (minv maxv : ℝ) (y : Fin H) (x : Fin W) (c : Fin 3) : ℂ :=
  (max 0 (expm1 (((final y x (flipChannel c) : ℝ) / 255) * (maxv - minv) + minv)) : ℝ) *
    Complex.exp (Complex.I * (Complex.arg (freq y x c) : ℝ))

/-- The per-pixel rewrite of `freq_drawing_finished` (lines 526–537): at every
changed pixel, every unlocked BGR channel is set to `0` if the displayed pixel
is near-black, and otherwise to the recombined target value; all other entries
keep the pre-commit spectrum value. -/
noncomputable def freqRewrite (freq : Spec H W) (baseline final : Buf H W)
    (locks : Fin 3 → Bool) (minv maxv : ℝ) : Spec H W :=
  fun y x c =>
    if changeMask baseline final y x ∧ locks c = false then
      if isBlackPixel final y x then 0
      else freqTargetValue freq final minv maxv y x c
    else freq y x c

/-- Outcome of `freq_drawing_finished`: no changed pixel, degenerate log
range, or a committed new spectrum. -/
inductive FreqOutcome (H W : ℕ) where
  | noChanges : FreqOutcome H W
  | rangeZero : FreqOutcome H W
  | committed : Spec H W → FreqOutcome H W

/-- `freq_drawing_finished`, reduced to its data flow: diff the display
against the baseline `normalized_spectrum`, report "no changes" on an empty
mask, bail out on a degenerate global log range, otherwise commit the
rewritten spectrum. -/
noncomputable def freq_drawing_finished (freq : Spec H W) (baseline final : Buf H W)
    (locks : Fin 3 → Bool) (minv maxv : ℝ) : FreqOutcome H W :=
  if anyChange baseline final then
    if maxv - minv < 1e-9 then .rangeZero
    else .committed (freqRewrite freq baseline final locks minv maxv)
  else .noChanges

end Reconcile

section PhaseReconcile

variable {H W : ℕ} [NeZero H] [NeZero W]

/-- Hue channel of OpenCV's 8-bit BGR→HSV conversion, used by the source via
`cv2.cvtColor(..., cv2.COLOR_BGR2HSV)` to read the painted hue back out of a
BGR pixel. OpenCV's fixed-point rounding is modelled as floor division; the
theorems below do not depend on the rounding mode, only on the hue lying in
`[0, 179]`. -/
def bgr2hsvHue (b g r : ℕ) : ℕ :=
  let v : ℤ := max b (max g r)
  let mn : ℤ := min b (min g r)
  let d : ℤ := v - mn
  if d = 0 then 0
  else
    let h6 : ℤ :=
      if v = r then (g : ℤ) - b
      else if v = g then ((b : ℤ) - r) + 2 * d
      else ((r : ℤ) - g) + 4 * d
    ((30 * h6 / d) % 180).toNat

lemma bgr2hsvHue_le (b g r : ℕ) : bgr2hsvHue b g r ≤ 179 := by
  unfold bgr2hsvHue
  by_cases hd : (max (b : ℤ) (max g r) - min (b : ℤ) (min g r)) = 0
  · simp [hd]
  · simp only [hd, if_false]
    have h1 := Int.emod_nonneg
      (30 * (if max (b : ℤ) (max g r) = r then (g : ℤ) - b
        else if max (b : ℤ) (max g r) = g then ((b : ℤ) - r) + 2 * (max (b : ℤ) (max g r) - min (b : ℤ) (min g r))
        else ((r : ℤ) - g) + 4 * (max (b : ℤ) (max g r) - min (b : ℤ) (min g r))) /
        (max (b : ℤ) (max g r) - min (b : ℤ) (min g r)))
      (by norm_num : (180 : ℤ) ≠ 0)
    have h2 := Int.emod_lt_of_pos
      (30 * (if max (b : ℤ) (max g r) = r then (g : ℤ) - b
        else if max (b : ℤ) (max g r) = g then ((b : ℤ) - r) + 2 * (max (b : ℤ) (max g r) - min (b : ℤ) (min g r))
        else ((r : ℤ) - g) + 4 * (max (b : ℤ) (max g r) - min (b : ℤ) (min g r))) /
        (max (b : ℤ) (max g r) - min (b : ℤ) (min g r)))
      (by norm_num : (0 : ℤ) < 180)
    omega

/-- The phase angle decoded from the painted BGR pixel:
`(hue / 179) · 2π − π`. -/
noncomputable def phaseDecodedAngle (drawn : Buf H W) (y : Fin H) (x : Fin W) : ℝ :=
  ((bgr2hsvHue (drawn y x 0) (drawn y x 1) (drawn y x 2) : ℝ) / 179) * (2 * Real.pi) - Real.pi

/-- The value written into the edited channel at a changed pixel of a phase
edit: the original magnitude recombined with the decoded phase. -/
noncomputable def phaseTargetValue (freq : Spec H W) (drawn : Buf H W) (c0 : Fin 3)
    (y : Fin H) (x : Fin W) : ℂ :=
  (Complex.abs (freq y x c0) : ℝ) * Complex.exp (Complex.I * (phaseDecodedAngle drawn y x : ℝ))

/-- The per-pixel rewrite of `_process_phase_drawing_finished` (lines
560–566): only channel `c0`, and only pixels of the change mask, are
rewritten. -/
noncomputable def phaseRewrite (freq : Spec H W) (baseline drawn : Buf H W)
    (c0 : Fin 3) : Spec H W :=
  fun y x c =>
    if c = c0 ∧ changeMask baseline drawn y x then phaseTargetValue freq drawn c0 y x
    else freq y x c

/-- `_process_phase_drawing_finished`, reduced to its data flow: diff the
drawn BGR data against the stored baseline phase visualization of channel
`c0`; `none` models the "no final changes detected" early return. -/
noncomputable def process_phase_drawing_finished (freq : Spec H W)
    (baseline drawn : Buf H W) (c0 : Fin 3) : Option (Spec H W) :=
  if anyChange baseline drawn then some (phaseRewrite freq baseline drawn c0) else none

end PhaseReconcile

section Filters

variable {H W : ℕ} [NeZero H] [NeZero W]

/-- Euclidean distance of pixel `(y, x)` from the spectrum centre
`(h // 2, w // 2)`. -/
noncomputable def distFromCenter (H W : ℕ) (y : Fin H) (x : Fin W) : ℝ :=
  Real.sqrt (((y : ℝ) - (H / 2 : ℕ)) ^ 2 + ((x : ℝ) - (W / 2 : ℕ)) ^ 2)

/-- `max_radius = sqrt((h//2)² + (w//2)²)`. -/
noncomputable def maxRadius (H W : ℕ) : ℝ :=
  Real.sqrt (((H / 2) ^ 2 + (W / 2) ^ 2 : ℕ))

/-- `apply_radial_filter`: keep all three channels of every pixel within
`radius_fraction · max_radius` of the centre, zero every other pixel. -/
noncomputable def apply_radial_filter (freq : Spec H W) (radius_fraction : ℝ) : Spec H W :=
  fun y x c =>
    if distFromCenter H W y x ≤ radius_fraction * maxRadius H W then freq y x c else 0

/-- `apply_magnitude_filter`: zero every per-channel entry whose stored log
magnitude (`self.magnitude_spectrum`) is below
`min + threshold_fraction · (max − min)`; `none` models the "log magnitude
range is zero" early return. -/
noncomputable def apply_magnitude_filter (freq : Spec H W)
    (magSpec : Fin H → Fin W → Fin 3 → ℝ) (minv maxv : ℝ)
    (threshold_fraction : ℝ) : Option (Spec H W) :=
  if maxv - minv < 1e-9 then none
  else some fun y x c =>
    if magSpec y x c < minv + threshold_fraction * (maxv - minv) then 0 else freq y x c

end Filters

section Loops

variable {H W : ℕ} [NeZero H] [NeZero W]

/-- One iteration of the `for r, c in zip(*changed_indices)` loop of
`freq_drawing_finished`: rewrite every unlocked channel of pixel `p` of the
accumulator, reading phase and display data only from the pre-commit
spectrum `freq` and the final display buffer. -/
noncomputable def freqPixelWrite (freq : Spec H W) (final : Buf H W)
    (locks : Fin 3 → Bool) (minv maxv : ℝ) (acc : Spec H W)
    (p : Fin H × Fin W) : Spec H W :=
  fun y x c =>
    if (y, x) = p ∧ locks c = false then
      if isBlackPixel final y x then 0 else freqTargetValue freq final minv maxv y x c
    else acc y x c

/-- The magnitude-edit rewrite loop run over an explicit list of changed
pixels, in list order, starting from the pre-commit spectrum. -/
noncomputable def freqLoop (freq : Spec H W) (final : Buf H W)
    (locks : Fin 3 → Bool) (minv maxv : ℝ) (l : List (Fin H × Fin W)) : Spec H W :=
  l.foldl (freqPixelWrite freq final locks minv maxv) freq

lemma freqLoop_foldl_eq (freq : Spec H W) (final : Buf H W)
    (locks : Fin 3 → Bool) (minv maxv : ℝ) :
    ∀ (l : List (Fin H × Fin W)) (acc : Spec H W),
      List.foldl (freqPixelWrite freq final locks minv maxv) acc l
      = fun y x c =>
          if (y, x) ∈ l ∧ locks c = false then
            if isBlackPixel final y x then 0 else freqTargetValue freq final minv maxv y x c
          else acc y x c := by
  intro l
  induction l with
  | nil =>
    intro acc
    funext y x c
    simp
  | cons p t ih =>
    intro acc
    rw [List.foldl_cons, ih]
    funext y x c
    simp only [freqPixelWrite, List.mem_cons]
    by_cases hl : locks c = false
    · by_cases ht : (y, x) ∈ t
      · simp [ht, hl]
      · by_cases hp : (y, x) = p
        · simp [ht, hp, hl]
        · simp [ht, hp, hl]
    · simp [hl]

/-- One iteration of the changed-pixel loop of
`_process_phase_drawing_finished`: rewrite channel `c0` of pixel `p` of the
accumulator, reading the magnitude only from the pre-commit spectrum and the
hue only from the drawn buffer. -/
noncomputable def phasePixelWrite (freq : Spec H W) (drawn : Buf H W) (c0 : Fin 3)
    (acc : Spec H W) (p : Fin H × Fin W) : Spec H W :=
  fun y x c =>
    if (y, x) = p ∧ c = c0 then phaseTargetValue freq drawn c0 y x else acc y x c

/-- The phase-edit rewrite loop run over an explicit list of changed pixels,
in list order, starting from the pre-commit spectrum. -/
noncomputable def phaseLoop (freq : Spec H W) (drawn : Buf H W) (c0 : Fin 3)
    (l : List (Fin H × Fin W)) : Spec H W :=
  l.foldl (phasePixelWrite freq drawn c0) freq

lemma phaseLoop_foldl_eq (freq : Spec H W) (drawn : Buf H W) (c0 : Fin 3) :
    ∀ (l : List (Fin H × Fin W)) (acc : Spec H W),
      List.foldl (phasePixelWrite freq drawn c0) acc l
      = fun y x c =>
          if (y, x) ∈ l ∧ c = c0 then phaseTargetValue freq drawn c0 y x else acc y x c := by
  intro l
  induction l with
  | nil =>
    intro acc
    funext y x c
    simp
  | cons p t ih =>
    intro acc
    rw [List.foldl_cons, ih]
    funext y x c
    simp only [phasePixelWrite, List.mem_cons]
    by_cases hc : c = c0
    · by_cases ht : (y, x) ∈ t
      · simp [ht, hc]
      · by_cases hp : (y, x) = p
        · simp [ht, hp, hc]
        · simp [ht, hp, hc]
    · simp [hc]

end Loops

section OrchestratorState

variable {H W : ℕ} [NeZero H] [NeZero W]

/-- The frequency-domain fields of `FourierTransformApp` that the claims
speak about: the spectrum, its derived log-magnitude matrix, global log
range, and baseline magnitude visualization, and the live display copy of
the magnitude visualization. -/
structure FreqState (H W : ℕ) where
  frequency_image : Spec H W
  magnitude_spectrum : Fin H → Fin W → Fin 3 → ℝ
  log_mag_range : ℝ × ℝ
  normalized_spectrum : Buf H W
  display_normalized_spectrum : Buf H W

/-- The state update performed by `freq_drawing_finished` (lines 538–541):
on a commit only `frequency_image` is replaced; `magnitude_spectrum`,
`global_log_mag_range` and the baseline `normalized_spectrum` are not
recomputed (the subsequent `_update_phase_displays_from_magnitude` call
touches only the phase canvases). -/
noncomputable def freq_drawing_finished_state (locks : Fin 3 → Bool)
    (s : FreqState H W) : FreqState H W :=
  match freq_drawing_finished s.frequency_image s.normalized_spectrum
      s.display_normalized_spectrum locks s.log_mag_range.1 s.log_mag_range.2 with
  | .committed f => { s with frequency_image := f }
  | _ => s

/-- The state update performed by `_process_phase_drawing_finished` (lines
567–569): on a commit only `frequency_image` is replaced. The baseline phase
visualization `phase_vis_<c>` the change mask diffs against is passed
explicitly. -/
noncomputable def process_phase_drawing_finished_state (baseline drawn : Buf H W)
    (c0 : Fin 3) (s : FreqState H W) : FreqState H W :=
  match process_phase_drawing_finished s.frequency_image baseline drawn c0 with
  | some f => { s with frequency_image := f }
  | none => s

/-- `_compute_visualizations_from_frequency_data`, restricted to the modelled
fields: recompute the log magnitudes, the global range and the baseline
magnitude visualization from `frequency_image`, and reset the display copy
to the fresh baseline. -/
noncomputable def compute_visualizations_from_frequency_data
    (s : FreqState H W) : FreqState H W :=
  let m := log_magnitude s.frequency_image
  let range := global_log_mag_range m
  { frequency_image := s.frequency_image
    magnitude_spectrum := m
    log_mag_range := range
    normalized_spectrum := normalized_spectrum_of m range.1 range.2
    display_normalized_spectrum := normalized_spectrum_of m range.1 range.2 }

end OrchestratorState

section ConcreteData

/-!
Concrete 1×1 instances used by the witnesses and counterexamples: a spectrum
whose blue channel holds `100` and whose green and red channels are zero,
together with its (consistent) derived log data, a baseline magnitude
visualization `[0, 0, 255]` (RGB), and an edited display `[255, 0, 255]`.
-/

/-- The pixel `(0, 0)` of the 1×1 test arrays. -/
def p00 : Fin 1 × Fin 1 := (0, 0)

noncomputable def cFreq : Spec 1 1 := fun _ _ c => if c = 0 then 100 else 0

def cNormSpec : Buf 1 1 := fun _ _ => ![0, 0, 255]

def cDisplay : Buf 1 1 := fun _ _ => ![255, 0, 255]

def cDisplayBlack : Buf 1 1 := fun _ _ => ![0, 0, 0]

noncomputable def cMin : ℝ := log1p npEps

noncomputable def cMax : ℝ := log1p (100 + npEps)

def cLocksNone : Fin 3 → Bool := fun _ => false

def cLocksG : Fin 3 → Bool := ![false, true, false]

def cPhaseBase : Buf 1 1 := fun _ _ => ![0, 0, 0]

def cDrawn : Buf 1 1 := fun _ _ => ![255, 255, 255]

lemma npEps_eq : npEps = 1e-9 := rfl

lemma cRange_width_ge : (1e-9 : ℝ) ≤ cMax - cMin := by
  have h1 : cMax - cMin = Real.log ((101 + 1e-9) / (1 + 1e-9)) := by
    rw [cMax, cMin, npEps_eq, log1p, log1p,
      Real.log_div (by norm_num) (by norm_num)]
    norm_num
  rw [h1]
  have h2 : (2 : ℝ) ≤ (101 + 1e-9) / (1 + 1e-9) := by
    rw [le_div_iff (by norm_num)]
    norm_num
  have h3 : Real.log 2 ≤ Real.log ((101 + 1e-9) / (1 + 1e-9)) :=
    Real.log_le_log (by norm_num) h2
  have h4 := Real.log_two_gt_d9
  linarith

lemma cRange_width_pos : (0 : ℝ) < cMax - cMin := by
  have := cRange_width_ge
  norm_num at this ⊢
  linarith

lemma cCommit (locks : Fin 3 → Bool) :
    freq_drawing_finished cFreq cNormSpec cDisplay locks cMin cMax
      = .committed (freqRewrite cFreq cNormSpec cDisplay locks cMin cMax) := by
  rw [freq_drawing_finished, if_pos (by decide : anyChange cNormSpec cDisplay),
    if_neg (not_lt.2 cRange_width_ge)]

lemma cCommitBlack (locks : Fin 3 → Bool) :
    freq_drawing_finished cFreq cNormSpec cDisplayBlack locks cMin cMax
      = .committed (freqRewrite cFreq cNormSpec cDisplayBlack locks cMin cMax) := by
  rw [freq_drawing_finished, if_pos (by decide : anyChange cNormSpec cDisplayBlack),
    if_neg (not_lt.2 cRange_width_ge)]

lemma cPhaseCommit (c0 : Fin 3) :
    process_phase_drawing_finished cFreq cPhaseBase cDrawn c0
      = some (phaseRewrite cFreq cPhaseBase cDrawn c0) := by
  rw [process_phase_drawing_finished, if_pos (by decide : anyChange cPhaseBase cDrawn)]

/-- The pre-commit orchestrator state of the concrete scenario: spectrum
`(B,G,R) = (100, 0, 0)` with consistently derived log data, after the user
painted the red display channel up to `255`. -/
noncomputable def cState : FreqState 1 1 where
  frequency_image := cFreq
  magnitude_spectrum := log_magnitude cFreq
  log_mag_range := (cMin, cMax)
  normalized_spectrum := cNormSpec
  display_normalized_spectrum := cDisplay

/-- The state after committing the concrete magnitude edit. -/
noncomputable def cPostEdit : FreqState 1 1 := freq_drawing_finished_state cLocksNone cState

lemma cPostEdit_eq :
    cPostEdit = { cState with
      frequency_image := freqRewrite cFreq cNormSpec cDisplay cLocksNone cMin cMax } := by
  rw [cPostEdit, freq_drawing_finished_state]
  have h : freq_drawing_finished cState.frequency_image cState.normalized_spectrum
      cState.display_normalized_spectrum cLocksNone cState.log_mag_range.1 cState.log_mag_range.2
      = .committed (freqRewrite cFreq cNormSpec cDisplay cLocksNone cMin cMax) := cCommit cLocksNone
  rw [h]

lemma cRewrite_red :
    freqRewrite cFreq cNormSpec cDisplay cLocksNone cMin cMax p00.1 p00.2 2
      = ((100 + npEps : ℝ) : ℂ) := by
  rw [freqRewrite]
  rw [if_pos ⟨by decide, rfl⟩, if_neg (by decide : ¬ isBlackPixel cDisplay p00.1 p00.2)]
  rw [freqTargetValue]
  have hdisp : (cDisplay p00.1 p00.2 (flipChannel 2) : ℝ) = 255 := by norm_num [cDisplay, flipChannel]
  have harg : Complex.arg (cFreq p00.1 p00.2 2) = 0 := by
    have h0 : cFreq p00.1 p00.2 2 = 0 := by
      simp only [cFreq]
      rw [if_neg (by decide)]
    rw [h0, Complex.arg_zero]
  rw [hdisp, harg]
  have hmag : max 0 (expm1 ((255 / 255 : ℝ) * (cMax - cMin) + cMin)) = 100 + npEps := by
    have h1 : (255 / 255 : ℝ) * (cMax - cMin) + cMin = cMax := by ring
    rw [h1, cMax, expm1_log1p (by rw [npEps_eq]; norm_num)]
    rw [max_eq_right (by rw [npEps_eq]; norm_num)]
  rw [hmag]
  simp

end ConcreteData

section CommitInversion

variable {H W : ℕ} [NeZero H] [NeZero W]

lemma freq_commit_inv (freq : Spec H W) (baseline final : Buf H W)
    (locks : Fin 3 → Bool) (minv maxv : ℝ) (newFreq : Spec H W)
    (hc : freq_drawing_finished freq baseline final locks minv maxv = .committed newFreq) :
    newFreq = freqRewrite freq baseline final locks minv maxv := by
  rw [freq_drawing_finished] at hc
  by_cases h1 : anyChange baseline final
  · rw [if_pos h1] at hc
    by_cases h2 : maxv - minv < 1e-9
    · rw [if_pos h2] at hc
      exact absurd hc (by simp)
    · rw [if_neg h2] at hc
      injection hc with h
      exact h.symm
  · rw [if_neg h1] at hc
    exact absurd hc (by simp)

lemma phase_commit_inv (freq : Spec H W) (baseline drawn : Buf H W) (c0 : Fin 3)
    (newFreq : Spec H W)
    (hc : process_phase_drawing_finished freq baseline drawn c0 = some newFreq) :
    newFreq = phaseRewrite freq baseline drawn c0 := by
  rw [process_phase_drawing_finished] at hc
  by_cases h1 : anyChange baseline drawn
  · rw [if_pos h1] at hc
    exact (Option.some_inj.1 hc).symm
  · rw [if_neg h1] at hc
    exact absurd hc (by simp)

end CommitInversion

/-- C1: for every committed magnitude edit, every changed pixel whose final
displayed RGB is not near-black, and every unlocked channel there, the
reconciler sets that channel's complex spectrum value to `m · e^{i·phase}`,
where `m = max 0 (expm1 ((v/255)·(max − min) + min))`, `v` is that channel's
8-bit value in the final display magnitude visualization (its RGB slot
`flipChannel c`), and `phase` is the angle of that channel's value in the
pre-commit spectrum. -/
theorem magnitude_edit_writes_recombined_value
    {H W : ℕ} [NeZero H] [NeZero W]
    (freq : Spec H W) (baseline final : Buf H W) (locks : Fin 3 → Bool)
    (minv maxv : ℝ) (newFreq : Spec H W)
    (hc : freq_drawing_finished freq baseline final locks minv maxv = .committed newFreq)
    (y : Fin H) (x : Fin W)
    (hm : changeMask baseline final y x)
    (hb : ¬ isBlackPixel final y x)
    (c : Fin 3) (hl : locks c = false) :
    newFreq y x c
      = ((max 0 (expm1 (((final y x (flipChannel c) : ℝ) / 255) * (maxv - minv) + minv)) : ℝ) : ℂ) *
          Complex.exp (Complex.I * (Complex.arg (freq y x c) : ℝ)) := by
  rw [freq_commit_inv freq baseline final locks minv maxv newFreq hc]
  rw [freqRewrite]
  rw [if_pos ⟨hm, hl⟩, if_neg hb, freqTargetValue]

/-- Witness for C1 at the concrete 1×1 scenario: the committed red-channel
value of the painted spectrum equals the recombined target value. -/
theorem magnitude_edit_writes_recombined_value_witness :
    freqRewrite cFreq cNormSpec cDisplay cLocksNone cMin cMax p00.1 p00.2 2
      = ((max 0 (expm1 (((cDisplay p00.1 p00.2 (flipChannel 2) : ℝ) / 255) * (cMax - cMin) + cMin)) : ℝ) : ℂ) *
          Complex.exp (Complex.I * (Complex.arg (cFreq p00.1 p00.2 2) : ℝ)) :=
  magnitude_edit_writes_recombined_value cFreq cNormSpec cDisplay cLocksNone cMin cMax
    (freqRewrite cFreq cNormSpec cDisplay cLocksNone cMin cMax)
    (cCommit cLocksNone) p00.1 p00.2 (by decide) (by decide) 2 rfl

/-- C2: across a committed magnitude edit, locked channels and unmasked
pixels keep bit-for-bit identical spectrum values (in particular channel G,
index 1, when it is locked); across a committed phase edit, channels other
than the edited one and unmasked pixels keep identical values. -/
theorem reconcile_preserves_locked_and_untouched
    {H W : ℕ} [NeZero H] [NeZero W]
    (freq : Spec H W) (baseline final : Buf H W) (locks : Fin 3 → Bool)
    (minv maxv : ℝ) (newFreqM : Spec H W)
    (hcM : freq_drawing_finished freq baseline final locks minv maxv = .committed newFreqM)
    (pbase drawn : Buf H W) (c0 : Fin 3) (newFreqP : Spec H W)
    (hcP : process_phase_drawing_finished freq pbase drawn c0 = some newFreqP) :
    (∀ c, locks c = true → ∀ y x, newFreqM y x c = freq y x c) ∧
    (∀ y x, ¬ changeMask baseline final y x → ∀ c, newFreqM y x c = freq y x c) ∧
    (locks 1 = true → ∀ y x, newFreqM y x 1 = freq y x 1) ∧
    (∀ c, c ≠ c0 → ∀ y x, newFreqP y x c = freq y x c) ∧
    (∀ y x, ¬ changeMask pbase drawn y x → ∀ c, newFreqP y x c = freq y x c) := by
  rw [freq_commit_inv freq baseline final locks minv maxv newFreqM hcM,
    phase_commit_inv freq pbase drawn c0 newFreqP hcP]
  refine ⟨?_, ?_, ?_, ?_, ?_⟩
  · intro c hlock y x
    rw [freqRewrite, if_neg]
    rintro ⟨-, hfalse⟩
    rw [hlock] at hfalse
    simp at hfalse
  · intro y x hmask c
    rw [freqRewrite, if_neg]
    rintro ⟨hm, -⟩
    exact hmask hm
  · intro hlock y x
    rw [freqRewrite, if_neg]
    rintro ⟨-, hfalse⟩
    rw [hlock] at hfalse
    simp at hfalse
  · intro c hc y x
    rw [phaseRewrite, if_neg]
    rintro ⟨hceq, -⟩
    exact hc hceq
  · intro y x hmask c
    rw [phaseRewrite, if_neg]
    rintro ⟨-, hm⟩
    exact hmask hm

/-- Witness for C2 at the concrete 1×1 scenario with channel G locked. -/
theorem reconcile_preserves_locked_and_untouched_witness :
    (∀ c, cLocksG c = true →
      ∀ y x, freqRewrite cFreq cNormSpec cDisplay cLocksG cMin cMax y x c = cFreq y x c) ∧
    (∀ y x, ¬ changeMask cNormSpec cDisplay y x →
      ∀ c, freqRewrite cFreq cNormSpec cDisplay cLocksG cMin cMax y x c = cFreq y x c) ∧
    (cLocksG 1 = true →
      ∀ y x, freqRewrite cFreq cNormSpec cDisplay cLocksG cMin cMax y x 1 = cFreq y x 1) ∧
    (∀ c, c ≠ (0 : Fin 3) →
      ∀ y x, phaseRewrite cFreq cPhaseBase cDrawn 0 y x c = cFreq y x c) ∧
    (∀ y x, ¬ changeMask cPhaseBase cDrawn y x →
      ∀ c, phaseRewrite cFreq cPhaseBase cDrawn 0 y x c = cFreq y x c) :=
  reconcile_preserves_locked_and_untouched cFreq cNormSpec cDisplay cLocksG cMin cMax
    (freqRewrite cFreq cNormSpec cDisplay cLocksG cMin cMax) (cCommit cLocksG)
    cPhaseBase cDrawn 0 (phaseRewrite cFreq cPhaseBase cDrawn 0) (cPhaseCommit 0)

/-- C3: for every committed magnitude edit, at each changed pixel whose
final displayed RGB is near-black (all three 8-bit values below 5), every
unlocked channel's spectrum value is set to exactly `0`. -/
theorem magnitude_edit_black_zeroes
    {H W : ℕ} [NeZero H] [NeZero W]
    (freq : Spec H W) (baseline final : Buf H W) (locks : Fin 3 → Bool)
    (minv maxv : ℝ) (newFreq : Spec H W)
    (hc : freq_drawing_finished freq baseline final locks minv maxv = .committed newFreq)
    (y : Fin H) (x : Fin W)
    (hm : changeMask baseline final y x)
    (hb : isBlackPixel final y x)
    (c : Fin 3) (hl : locks c = false) :
    newFreq y x c = 0 := by
  rw [freq_commit_inv freq baseline final locks minv maxv newFreq hc]
  rw [freqRewrite, if_pos ⟨hm, hl⟩, if_pos hb]

/-- Witness for C3: painting the 1×1 display to black zeroes the (unlocked)
red channel of the committed spectrum. -/
theorem magnitude_edit_black_zeroes_witness :
    freqRewrite cFreq cNormSpec cDisplayBlack cLocksNone cMin cMax p00.1 p00.2 2 = 0 :=
  magnitude_edit_black_zeroes cFreq cNormSpec cDisplayBlack cLocksNone cMin cMax
    (freqRewrite cFreq cNormSpec cDisplayBlack cLocksNone cMin cMax)
    (cCommitBlack cLocksNone) p00.1 p00.2 (by decide) (by decide) 2 rfl

/-- An untouched copy of the concrete state: the display equals the
baseline. -/
noncomputable def cStateClean : FreqState 1 1 :=
  { cState with display_normalized_spectrum := cNormSpec }

/-- The all-`7` 1×1 image used to witness the round trip. -/
def cImg7 : Buf 1 1 := fun _ _ _ => 7

/-- C5: for every valid 3-channel 8-bit image (1×1 and solid-color images
included), the forward transform followed by the inverse transform with no
edits reproduces the original image within ±1 per sample (in the exact-real
model of the pipeline it reproduces it exactly). -/
theorem forward_inverse_roundtrip
    {H W : ℕ} [NeZero H] [NeZero W]
    (img : Buf H W) (hv : ∀ y x c, img y x c ≤ 255) :
    ∀ y x c,
      ((inverse_transform (compute_frequency_image img) y x c : ℤ) - (img y x c : ℤ)).natAbs ≤ 1 := by
  intro y x c
  rw [inverse_transform_compute img hv]
  simp

/-- Witness for C5 on a concrete 1×1 solid image. -/
theorem forward_inverse_roundtrip_witness :
    ((inverse_transform (compute_frequency_image cImg7) 0 0 0 : ℤ) - (cImg7 0 0 0 : ℤ)).natAbs ≤ 1 :=
  forward_inverse_roundtrip cImg7 (by decide) 0 0 0

/-- C6: when every channel of every pixel of the final display differs from
the baseline by at most 10, both reconciliation paths report "no changes"
and leave the state — in particular the `FrequencySpectrum` — unchanged. -/
theorem small_deltas_no_reconciliation
    {H W : ℕ} [NeZero H] [NeZero W]
    (s : FreqState H W) (locks : Fin 3 → Bool) (pbase drawn : Buf H W) (c0 : Fin 3)
    (hM : ∀ y x c,
      ((s.display_normalized_spectrum y x c : ℤ) - (s.normalized_spectrum y x c : ℤ)).natAbs ≤ 10)
    (hP : ∀ y x c, ((drawn y x c : ℤ) - (pbase y x c : ℤ)).natAbs ≤ 10) :
    freq_drawing_finished s.frequency_image s.normalized_spectrum s.display_normalized_spectrum
        locks s.log_mag_range.1 s.log_mag_range.2 = .noChanges ∧
    freq_drawing_finished_state locks s = s ∧
    process_phase_drawing_finished s.frequency_image pbase drawn c0 = none ∧
    process_phase_drawing_finished_state pbase drawn c0 s = s := by
  have hnoM : ¬ anyChange s.normalized_spectrum s.display_normalized_spectrum := by
    rintro ⟨y, x, c, hgt⟩
    have := hM y x c
    omega
  have hnoP : ¬ anyChange pbase drawn := by
    rintro ⟨y, x, c, hgt⟩
    have := hP y x c
    omega
  have h1 : freq_drawing_finished s.frequency_image s.normalized_spectrum
      s.display_normalized_spectrum locks s.log_mag_range.1 s.log_mag_range.2 = .noChanges := by
    rw [freq_drawing_finished, if_neg hnoM]
  have h3 : process_phase_drawing_finished s.frequency_image pbase drawn c0 = none := by
    rw [process_phase_drawing_finished, if_neg hnoP]
  refine ⟨h1, ?_, h3, ?_⟩
  · rw [freq_drawing_finished_state, h1]
  · rw [process_phase_drawing_finished_state, h3]

/-- Witness for C6: an untouched display (equal to its baseline) commits
nothing. -/
theorem small_deltas_no_reconciliation_witness :
    freq_drawing_finished cStateClean.frequency_image cStateClean.normalized_spectrum
        cStateClean.display_normalized_spectrum cLocksNone
        cStateClean.log_mag_range.1 cStateClean.log_mag_range.2 = .noChanges ∧
    freq_drawing_finished_state cLocksNone cStateClean = cStateClean ∧
    process_phase_drawing_finished cStateClean.frequency_image cPhaseBase cPhaseBase 0 = none ∧
    process_phase_drawing_finished_state cPhaseBase cPhaseBase 0 cStateClean = cStateClean :=
  small_deltas_no_reconciliation cStateClean cLocksNone cPhaseBase cPhaseBase 0
    (by decide) (by decide)

/-- C9: with `fraction = 1.0` the radial low-pass filter is the identity —
no pixel's Euclidean distance from the spectrum centre exceeds the keep
radius `sqrt((H/2)² + (W/2)²)`, so no entry is zeroed. -/
theorem radial_filter_full_fraction_identity
    {H W : ℕ} [NeZero H] [NeZero W] (freq : Spec H W) :
    (∀ (y : Fin H) (x : Fin W), distFromCenter H W y x ≤ maxRadius H W) ∧
    apply_radial_filter freq 1 = freq := by
  have hdist : ∀ (y : Fin H) (x : Fin W), distFromCenter H W y x ≤ maxRadius H W := by
    intro y x
    rw [distFromCenter, maxRadius]
    apply Real.sqrt_le_sqrt
    push_cast
    have hy2 : (y : ℕ) ≤ 2 * (H / 2) := by
      have := y.isLt
      omega
    have hx2 : (x : ℕ) ≤ 2 * (W / 2) := by
      have := x.isLt
      omega
    have hy : ((y : ℝ) - (H / 2 : ℕ)) ^ 2 ≤ ((H / 2 : ℕ) : ℝ) ^ 2 := by
      apply sq_le_sq'
      · have : (0 : ℝ) ≤ (y : ℝ) := Nat.cast_nonneg _
        linarith
      · have : (y : ℝ) ≤ 2 * ((H / 2 : ℕ) : ℝ) := by exact_mod_cast hy2
        linarith
    have hx : ((x : ℝ) - (W / 2 : ℕ)) ^ 2 ≤ ((W / 2 : ℕ) : ℝ) ^ 2 := by
      apply sq_le_sq'
      · have : (0 : ℝ) ≤ (x : ℝ) := Nat.cast_nonneg _
        linarith
      · have : (x : ℝ) ≤ 2 * ((W / 2 : ℕ) : ℝ) := by exact_mod_cast hx2
        linarith
    push_cast at hy hx ⊢
    linarith
  refine ⟨hdist, ?_⟩
  funext y x c
  rw [apply_radial_filter, if_pos]
  rw [one_mul]
  exact hdist y x

/-- Witness for C9 at the concrete 1×1 spectrum. -/
theorem radial_filter_full_fraction_identity_witness :
    (∀ (y : Fin 1) (x : Fin 1), distFromCenter 1 1 y x ≤ maxRadius 1 1) ∧
    apply_radial_filter cFreq 1 = cFreq :=
  radial_filter_full_fraction_identity cFreq

/-- C10: during a single commit each rewritten entry is computed only from
the pre-commit spectrum and the final display buffers, so the rewrite loop
over the changed pixels produces the pointwise reconciliation result for any
enumeration of the change mask, and its outcome is invariant under
permuting the processing order — for both the magnitude and the phase
path. -/
theorem reconcile_order_independent
    {H W : ℕ} [NeZero H] [NeZero W]
    (freq : Spec H W) (baseline final : Buf H W) (locks : Fin 3 → Bool)
    (minv maxv : ℝ) (pbase drawn : Buf H W) (c0 : Fin 3)
    (l₁ l₂ l₃ : List (Fin H × Fin W)) (hperm : l₁.Perm l₂)
    (hmem : ∀ p : Fin H × Fin W, p ∈ l₃ ↔ changeMask baseline final p.1 p.2)
    (q₁ q₂ q₃ : List (Fin H × Fin W)) (hqperm : q₁.Perm q₂)
    (hqmem : ∀ p : Fin H × Fin W, p ∈ q₃ ↔ changeMask pbase drawn p.1 p.2) :
    freqLoop freq final locks minv maxv l₁ = freqLoop freq final locks minv maxv l₂ ∧
    freqLoop freq final locks minv maxv l₃ = freqRewrite freq baseline final locks minv maxv ∧
    phaseLoop freq drawn c0 q₁ = phaseLoop freq drawn c0 q₂ ∧
    phaseLoop freq drawn c0 q₃ = phaseRewrite freq pbase drawn c0 := by
  have hF := freqLoop_foldl_eq freq final locks minv maxv
  have hP := phaseLoop_foldl_eq freq drawn c0
  refine ⟨?_, ?_, ?_, ?_⟩
  · rw [freqLoop, freqLoop, hF l₁ freq, hF l₂ freq]
    funext y x c
    exact if_congr (and_congr_left' hperm.mem_iff) rfl rfl
  · rw [freqLoop, hF l₃ freq]
    funext y x c
    simp only [freqRewrite]
    exact if_congr (and_congr_left' (hmem (y, x))) rfl rfl
  · rw [phaseLoop, phaseLoop, hP q₁ freq, hP q₂ freq]
    funext y x c
    exact if_congr (and_congr_left' hqperm.mem_iff) rfl rfl
  · rw [phaseLoop, hP q₃ freq]
    funext y x c
    simp only [phaseRewrite]
    refine if_congr ⟨fun h => ⟨h.2, (hqmem (y, x)).1 h.1⟩, fun h => ⟨(hqmem (y, x)).2 h.2, h.1⟩⟩ rfl rfl

/-- Witness for C10 with the concrete 1×1 scenario: the single changed pixel
enumerates the mask, and processing it in either (trivially permuted) order
gives the pointwise reconciliation result. -/
theorem reconcile_order_independent_witness :
    freqLoop cFreq cDisplay cLocksNone cMin cMax [p00] = freqLoop cFreq cDisplay cLocksNone cMin cMax [p00] ∧
    freqLoop cFreq cDisplay cLocksNone cMin cMax [p00]
      = freqRewrite cFreq cNormSpec cDisplay cLocksNone cMin cMax ∧
    phaseLoop cFreq cDrawn 0 [p00] = phaseLoop cFreq cDrawn 0 [p00] ∧
    phaseLoop cFreq cDrawn 0 [p00] = phaseRewrite cFreq cPhaseBase cDrawn 0 :=
  reconcile_order_independent cFreq cNormSpec cDisplay cLocksNone cMin cMax cPhaseBase cDrawn 0
    [p00] [p00] [p00] (by decide) (by decide) [p00] [p00] [p00] (by decide) (by decide)

lemma cDecodedAngle : phaseDecodedAngle cDrawn p00.1 p00.2 = -Real.pi := by
  rw [phaseDecodedAngle]
  have h : bgr2hsvHue (cDrawn p00.1 p00.2 0) (cDrawn p00.1 p00.2 1) (cDrawn p00.1 p00.2 2) = 0 := by
    decide
  rw [h]
  norm_num

lemma cPhaseTarget : phaseTargetValue cFreq cDrawn 0 p00.1 p00.2 = -100 := by
  rw [phaseTargetValue, cDecodedAngle]
  have habs : Complex.abs (cFreq p00.1 p00.2 0) = 100 := by
    have h0 : cFreq p00.1 p00.2 0 = 100 := by
      simp [cFreq]
    rw [h0]
    norm_num
  rw [habs]
  have hexp : Complex.exp (Complex.I * ((-Real.pi : ℝ) : ℂ)) = -1 := by
    have h1 : Complex.I * ((-Real.pi : ℝ) : ℂ) = -(Real.pi * Complex.I) := by
      push_cast
      ring
    rw [h1, Complex.exp_neg, Complex.exp_pi_mul_I]
    norm_num
  rw [hexp]
  norm_num

/-- C4 counterexample: painting white (hue 0) on the blue phase canvas at a
pixel of nonzero magnitude commits the value `100·e^{-iπ} = -100`, whose
angle is `π`, not the decoded phase `(0/179)·2π − π = -π`: the committed
value does not have the angle the claim states. -/
theorem phase_edit_angle_counterexample :
    process_phase_drawing_finished cFreq cPhaseBase cDrawn 0
        = some (phaseRewrite cFreq cPhaseBase cDrawn 0) ∧
    changeMask cPhaseBase cDrawn p00.1 p00.2 ∧
    Complex.arg (phaseRewrite cFreq cPhaseBase cDrawn 0 p00.1 p00.2 0)
      ≠ phaseDecodedAngle cDrawn p00.1 p00.2 := by
  refine ⟨cPhaseCommit 0, by decide, ?_⟩
  have hval : phaseRewrite cFreq cPhaseBase cDrawn 0 p00.1 p00.2 0 = -100 := by
    rw [phaseRewrite, if_pos ⟨rfl, by decide⟩]
    exact cPhaseTarget
  have harg : Complex.arg (-100 : ℂ) = Real.pi := by
    have h : (-100 : ℂ) = ((-100 : ℝ) : ℂ) := by norm_num
    rw [h]
    exact Complex.arg_ofReal_of_neg (by norm_num)
  rw [hval, harg, cDecodedAngle]
  intro h
  have := Real.pi_pos
  linarith

/-- C4 (amended): for every committed phase edit and changed pixel, the new
value of the edited channel is `|old|·e^{iθ}` with `θ = (hue/179)·2π − π`
decoded from the painted hue; its absolute value therefore equals the
pre-commit absolute value exactly (a phase edit never alters magnitude), and
its angle equals `θ` whenever the pre-commit value is nonzero and the hue is
at least 1 (at hue 0 the decoded `θ = -π` is represented by `arg = π`, and at
zero magnitude the committed value is `0` with `arg = 0`). -/
theorem phase_edit_preserves_magnitude
    {H W : ℕ} [NeZero H] [NeZero W]
    (freq : Spec H W) (pbase drawn : Buf H W) (c0 : Fin 3) (newFreq : Spec H W)
    (hc : process_phase_drawing_finished freq pbase drawn c0 = some newFreq)
    (y : Fin H) (x : Fin W) (hm : changeMask pbase drawn y x) :
    newFreq y x c0
      = ((Complex.abs (freq y x c0) : ℝ) : ℂ) *
          Complex.exp (Complex.I * (phaseDecodedAngle drawn y x : ℝ)) ∧
    Complex.abs (newFreq y x c0) = Complex.abs (freq y x c0) ∧
    (freq y x c0 ≠ 0 →
      1 ≤ bgr2hsvHue (drawn y x 0) (drawn y x 1) (drawn y x 2) →
      Complex.arg (newFreq y x c0) = phaseDecodedAngle drawn y x) := by
  have hval : newFreq y x c0 = phaseTargetValue freq drawn c0 y x := by
    rw [phase_commit_inv freq pbase drawn c0 newFreq hc]
    rw [phaseRewrite, if_pos ⟨rfl, hm⟩]
  refine ⟨hval, ?_, ?_⟩
  · rw [hval, phaseTargetValue, map_mul, Complex.abs_exp]
    have hre : (Complex.I * ((phaseDecodedAngle drawn y x : ℝ) : ℂ)).re = 0 := by
      simp
    rw [hre, Real.exp_zero, mul_one, Complex.abs_ofReal]
    exact abs_of_nonneg (Complex.abs.nonneg _)
  · intro hne hhue
    rw [hval, phaseTargetValue]
    have hr : 0 < Complex.abs (freq y x c0) := Complex.abs.pos hne
    have h1 : (1 : ℝ) ≤ ((bgr2hsvHue (drawn y x 0) (drawn y x 1) (drawn y x 2) : ℕ) : ℝ) := by
      exact_mod_cast hhue
    have h2 : ((bgr2hsvHue (drawn y x 0) (drawn y x 1) (drawn y x 2) : ℕ) : ℝ) ≤ 179 := by
      exact_mod_cast bgr2hsvHue_le (drawn y x 0) (drawn y x 1) (drawn y x 2)
    have hpi := Real.pi_pos
    have hrange : phaseDecodedAngle drawn y x ∈ Set.Ioc (-Real.pi) Real.pi := by
      constructor
      · rw [phaseDecodedAngle]
        have hpos : 0 < ((bgr2hsvHue (drawn y x 0) (drawn y x 1) (drawn y x 2) : ℕ) : ℝ) / 179
            * (2 * Real.pi) :=
          mul_pos (div_pos (by linarith) (by norm_num)) (by linarith)
        linarith
      · rw [phaseDecodedAngle]
        have hle : ((bgr2hsvHue (drawn y x 0) (drawn y x 1) (drawn y x 2) : ℕ) : ℝ) / 179 ≤ 1 :=
          (div_le_one (by norm_num)).2 h2
        nlinarith
    have hcs : Complex.exp (Complex.I * ((phaseDecodedAngle drawn y x : ℝ) : ℂ))
        = Complex.cos (phaseDecodedAngle drawn y x) + Complex.sin (phaseDecodedAngle drawn y x) * Complex.I := by
      rw [mul_comm, Complex.exp_mul_I]
    rw [hcs]
    exact Complex.arg_mul_cos_add_sin_mul_I hr hrange

/-- Witness for the amended C4 at the concrete committed phase edit. -/
theorem phase_edit_preserves_magnitude_witness :
    phaseRewrite cFreq cPhaseBase cDrawn 0 p00.1 p00.2 0
      = ((Complex.abs (cFreq p00.1 p00.2 0) : ℝ) : ℂ) *
          Complex.exp (Complex.I * (phaseDecodedAngle cDrawn p00.1 p00.2 : ℝ)) ∧
    Complex.abs (phaseRewrite cFreq cPhaseBase cDrawn 0 p00.1 p00.2 0)
      = Complex.abs (cFreq p00.1 p00.2 0) ∧
    (cFreq p00.1 p00.2 0 ≠ 0 →
      1 ≤ bgr2hsvHue (cDrawn p00.1 p00.2 0) (cDrawn p00.1 p00.2 1) (cDrawn p00.1 p00.2 2) →
      Complex.arg (phaseRewrite cFreq cPhaseBase cDrawn 0 p00.1 p00.2 0)
        = phaseDecodedAngle cDrawn p00.1 p00.2) :=
  phase_edit_preserves_magnitude cFreq cPhaseBase cDrawn 0
    (phaseRewrite cFreq cPhaseBase cDrawn 0) (cPhaseCommit 0) p00.1 p00.2 (by decide)

/-- C7 counterexample: committing the concrete magnitude edit replaces the
spectrum's red-channel value, yet the stored `magnitude_spectrum` still holds
the pre-commit log magnitude, which no longer equals `log1p(|z| + ε)` of the
new `frequency_image`: the derived state is left stale after a magnitude-edit
commit. -/
theorem derived_state_stale_counterexample :
    (freq_drawing_finished_state cLocksNone cState).frequency_image p00.1 p00.2 2
        ≠ cState.frequency_image p00.1 p00.2 2 ∧
    (freq_drawing_finished_state cLocksNone cState).magnitude_spectrum p00.1 p00.2 2
        ≠ log1p (Complex.abs
            ((freq_drawing_finished_state cLocksNone cState).frequency_image p00.1 p00.2 2)
          + npEps) := by
  have hpost : freq_drawing_finished_state cLocksNone cState
      = { cState with frequency_image := freqRewrite cFreq cNormSpec cDisplay cLocksNone cMin cMax } :=
    cPostEdit_eq
  rw [hpost]
  have h0 : cFreq p00.1 p00.2 2 = 0 := by simp [cFreq]
  constructor
  · show freqRewrite cFreq cNormSpec cDisplay cLocksNone cMin cMax p00.1 p00.2 2
        ≠ cFreq p00.1 p00.2 2
    rw [cRewrite_red, h0]
    simp only [ne_eq, Complex.ofReal_eq_zero]
    rw [npEps_eq]
    norm_num
  · show log_magnitude cFreq p00.1 p00.2 2
        ≠ log1p (Complex.abs (freqRewrite cFreq cNormSpec cDisplay cLocksNone cMin cMax p00.1 p00.2 2) + npEps)
    rw [cRewrite_red, log_magnitude, h0, map_zero, zero_add]
    have habs : Complex.abs ((100 + npEps : ℝ) : ℂ) = 100 + npEps := by
      rw [Complex.abs_ofReal]
      exact abs_of_nonneg (by rw [npEps_eq]; norm_num)
    rw [habs]
    have hlt : log1p npEps < log1p (100 + npEps + npEps) := by
      apply log1p_lt_log1p
      · rw [npEps_eq]; norm_num
      · rw [npEps_eq]; norm_num
    exact ne_of_lt hlt

/-- C7 (amended): `_compute_visualizations_from_frequency_data` — run on
load, reset, apply-result, spatial edits and filter application — recomputes
the LogMagnitude matrix, the GlobalLogRange and the baseline magnitude
visualization from the current `FrequencySpectrum`; the magnitude- and
phase-edit commits do not: they replace only `frequency_image` and leave the
stored LogMagnitude, GlobalLogRange and baseline magnitude visualization at
their pre-commit values (the magnitude path refreshes only the phase
displays' value channels). -/
theorem derived_state_recompute_behaviour
    {H W : ℕ} [NeZero H] [NeZero W] (s : FreqState H W) (locks : Fin 3 → Bool)
    (pbase drawn : Buf H W) (c0 : Fin 3) :
    (compute_visualizations_from_frequency_data s).magnitude_spectrum
        = log_magnitude s.frequency_image ∧
    (compute_visualizations_from_frequency_data s).log_mag_range
        = global_log_mag_range (log_magnitude s.frequency_image) ∧
    (compute_visualizations_from_frequency_data s).normalized_spectrum
        = normalized_spectrum_of (log_magnitude s.frequency_image)
            (global_log_mag_range (log_magnitude s.frequency_image)).1
            (global_log_mag_range (log_magnitude s.frequency_image)).2 ∧
    (freq_drawing_finished_state locks s).magnitude_spectrum = s.magnitude_spectrum ∧
    (freq_drawing_finished_state locks s).log_mag_range = s.log_mag_range ∧
    (freq_drawing_finished_state locks s).normalized_spectrum = s.normalized_spectrum ∧
    (process_phase_drawing_finished_state pbase drawn c0 s).magnitude_spectrum
        = s.magnitude_spectrum ∧
    (process_phase_drawing_finished_state pbase drawn c0 s).log_mag_range = s.log_mag_range ∧
    (process_phase_drawing_finished_state pbase drawn c0 s).normalized_spectrum
        = s.normalized_spectrum := by
  refine ⟨rfl, rfl, rfl, ?_, ?_, ?_, ?_, ?_, ?_⟩
  · cases hout : freq_drawing_finished s.frequency_image s.normalized_spectrum
        s.display_normalized_spectrum locks s.log_mag_range.1 s.log_mag_range.2 <;>
      · unfold freq_drawing_finished_state
        rw [hout]
  · cases hout : freq_drawing_finished s.frequency_image s.normalized_spectrum
        s.display_normalized_spectrum locks s.log_mag_range.1 s.log_mag_range.2 <;>
      · unfold freq_drawing_finished_state
        rw [hout]
  · cases hout : freq_drawing_finished s.frequency_image s.normalized_spectrum
        s.display_normalized_spectrum locks s.log_mag_range.1 s.log_mag_range.2 <;>
      · unfold freq_drawing_finished_state
        rw [hout]
  · cases hout : process_phase_drawing_finished s.frequency_image pbase drawn c0 <;>
      · unfold process_phase_drawing_finished_state
        rw [hout]
  · cases hout : process_phase_drawing_finished s.frequency_image pbase drawn c0 <;>
      · unfold process_phase_drawing_finished_state
        rw [hout]
  · cases hout : process_phase_drawing_finished s.frequency_image pbase drawn c0 <;>
      · unfold process_phase_drawing_finished_state
        rw [hout]

/-- Witness for the amended C7 at the concrete state. -/
theorem derived_state_recompute_behaviour_witness :
    (compute_visualizations_from_frequency_data cState).magnitude_spectrum
        = log_magnitude cState.frequency_image ∧
    (compute_visualizations_from_frequency_data cState).log_mag_range
        = global_log_mag_range (log_magnitude cState.frequency_image) ∧
    (compute_visualizations_from_frequency_data cState).normalized_spectrum
        = normalized_spectrum_of (log_magnitude cState.frequency_image)
            (global_log_mag_range (log_magnitude cState.frequency_image)).1
            (global_log_mag_range (log_magnitude cState.frequency_image)).2 ∧
    (freq_drawing_finished_state cLocksNone cState).magnitude_spectrum
        = cState.magnitude_spectrum ∧
    (freq_drawing_finished_state cLocksNone cState).log_mag_range = cState.log_mag_range ∧
    (freq_drawing_finished_state cLocksNone cState).normalized_spectrum
        = cState.normalized_spectrum ∧
    (process_phase_drawing_finished_state cPhaseBase cDrawn 0 cState).magnitude_spectrum
        = cState.magnitude_spectrum ∧
    (process_phase_drawing_finished_state cPhaseBase cDrawn 0 cState).log_mag_range
        = cState.log_mag_range ∧
    (process_phase_drawing_finished_state cPhaseBase cDrawn 0 cState).normalized_spectrum
        = cState.normalized_spectrum :=
  derived_state_recompute_behaviour cState cLocksNone cPhaseBase cDrawn 0

/-- The filter output of the stale-state counterexample, written with the
stale stored values the filter actually consults. -/
noncomputable def cFiltered : Spec 1 1 :=
  fun y x c =>
    if log_magnitude cFreq y x c < cMin + (1/2 : ℝ) * (cMax - cMin) then 0
    else freqRewrite cFreq cNormSpec cDisplay cLocksNone cMin cMax y x c

/-- C8 counterexample: after the committed magnitude edit the stored
LogMagnitude matrix is stale, and `apply_magnitude_filter` with
`fraction = 1/2` zeroes the red-channel entry even though `log1p(|z| + ε)` of
that entry's *current* spectrum value is not below the threshold (and the
entry itself is nonzero): the filter thresholds the stored matrix, not the
current `FrequencySpectrum`. -/
theorem magnitude_filter_stale_counterexample :
    ((0 : ℝ) ≤ 1/2 ∧ (1/2 : ℝ) ≤ 1) ∧
    apply_magnitude_filter cPostEdit.frequency_image cPostEdit.magnitude_spectrum
        cPostEdit.log_mag_range.1 cPostEdit.log_mag_range.2 (1/2) = some cFiltered ∧
    cFiltered p00.1 p00.2 2 = 0 ∧
    cPostEdit.frequency_image p00.1 p00.2 2 ≠ 0 ∧
    ¬ (log1p (Complex.abs (cPostEdit.frequency_image p00.1 p00.2 2) + npEps)
        < cPostEdit.log_mag_range.1
          + (1/2 : ℝ) * (cPostEdit.log_mag_range.2 - cPostEdit.log_mag_range.1)) := by
  have hfi : cPostEdit.frequency_image p00.1 p00.2 2 = ((100 + npEps : ℝ) : ℂ) := by
    rw [cPostEdit_eq]
    exact cRewrite_red
  have hms : cPostEdit.magnitude_spectrum = log_magnitude cFreq := by
    rw [cPostEdit_eq]
    rfl
  have hrange : cPostEdit.log_mag_range = (cMin, cMax) := by
    rw [cPostEdit_eq]
    rfl
  have habs : Complex.abs ((100 + npEps : ℝ) : ℂ) = 100 + npEps := by
    rw [Complex.abs_ofReal]
    exact abs_of_nonneg (by rw [npEps_eq]; norm_num)
  have hfreq : cPostEdit.frequency_image
      = freqRewrite cFreq cNormSpec cDisplay cLocksNone cMin cMax := by
    rw [cPostEdit_eq]
  refine ⟨⟨by norm_num, by norm_num⟩, ?_, ?_, ?_, ?_⟩
  · rw [hms, hrange, hfreq, apply_magnitude_filter]
    rw [if_neg (not_lt.2 (by simpa using cRange_width_ge))]
    rfl
  · rw [cFiltered]
    rw [if_pos]
    have h0 : cFreq p00.1 p00.2 2 = 0 := by simp [cFreq]
    rw [log_magnitude, h0, map_zero, zero_add]
    have hcm : log1p npEps = cMin := rfl
    rw [hcm]
    have := cRange_width_pos
    linarith
  · rw [hfi]
    simp only [ne_eq, Complex.ofReal_eq_zero]
    rw [npEps_eq]
    norm_num
  · rw [hfi, hrange, habs]
    have h1 : cMax < log1p (100 + npEps + npEps) := by
      apply log1p_lt_log1p
      · rw [npEps_eq]; norm_num
      · rw [npEps_eq]; norm_num
    have h2 := cRange_width_pos
    show ¬ (log1p (100 + npEps + npEps) < cMin + (1/2 : ℝ) * (cMax - cMin))
    intro hcon
    linarith

/-- C8 (amended): whenever `apply_magnitude_filter` commits (the stored
global log range is not degenerate), the produced spectrum zeroes exactly the
per-channel entries whose entry of the *stored* LogMagnitude matrix
(`self.magnitude_spectrum`, last recomputed on load, reset, spatial edit or
filter application — not on edit commits) is below
`min + fraction · (max − min)`, and keeps every other entry unchanged; this
coincides with thresholding `log1p(|z| + ε)` of the current
`FrequencySpectrum` exactly when the stored matrix is up to date. -/
theorem magnitude_filter_thresholds_stored_logmag
    {H W : ℕ} [NeZero H] [NeZero W]
    (freq : Spec H W) (magSpec : Fin H → Fin W → Fin 3 → ℝ) (minv maxv fraction : ℝ)
    (h0 : 0 ≤ fraction) (h1 : fraction ≤ 1) (g : Spec H W)
    (hg : apply_magnitude_filter freq magSpec minv maxv fraction = some g) :
    ∀ y x c, g y x c
      = if magSpec y x c < minv + fraction * (maxv - minv) then 0 else freq y x c := by
  intro y x c
  rw [apply_magnitude_filter] at hg
  by_cases hw : maxv - minv < 1e-9
  · rw [if_pos hw] at hg
    exact absurd hg (by simp)
  · rw [if_neg hw] at hg
    rw [← Option.some_inj.1 hg]

/-- A concrete non-degenerate filter input for the C8 witness. -/
noncomputable def cFreq1 : Spec 1 1 := fun _ _ _ => 1

/-- All-zero stored log magnitudes for the C8 witness. -/
noncomputable def cMagSpec0 : Fin 1 → Fin 1 → Fin 3 → ℝ := fun _ _ _ => 0

/-- The filter output for the C8 witness. -/
noncomputable def cFiltered1 : Spec 1 1 :=
  fun y x c => if cMagSpec0 y x c < 0 + (1/2 : ℝ) * (1 - 0) then 0 else cFreq1 y x c

lemma cFilter1_commit :
    apply_magnitude_filter cFreq1 cMagSpec0 0 1 (1/2) = some cFiltered1 := by
  rw [apply_magnitude_filter, if_neg (by norm_num)]
  rfl

/-- Witness for the amended C8, evaluated at the single pixel's red channel. -/
theorem magnitude_filter_thresholds_stored_logmag_witness :
    cFiltered1 p00.1 p00.2 2
      = if cMagSpec0 p00.1 p00.2 2 < 0 + (1/2 : ℝ) * (1 - 0) then 0 else cFreq1 p00.1 p00.2 2 :=
  magnitude_filter_thresholds_stored_logmag cFreq1 cMagSpec0 0 1 (1/2)
    (by norm_num) (by norm_num) cFiltered1 cFilter1_commit p00.1 p00.2 2
